import Mathlib

/-!
# Verification of `embedded-morse` (`src/lib.rs`)

Shallow embedding of the Morse-code output driver.  The driver walks an
input string, looks letters up in the constant `CHARS` table, and drives a
digital output pin with timed pulses.  We model the externally observable
behaviour as a list of `Event`s (pin level sets and millisecond delays).
Pin set operations are fallible: a fault model `fault : Nat → Option ε`
gives the result of the k-th pin-set call (`none` = success, `some e` =
that call fails with error `e`).  All `u16` arithmetic from the source is
modelled on `Nat` with explicit `% 65536` where the source can overflow;
`u8` fields (`length`, `pattern`) never overflow in the operations used.
Input strings are lists of Unicode scalar values (`List Nat`), matching
Rust's `str::chars` iteration.
-/

/-- A pin level driven by `OutputPin::set_high` / `set_low`. -/
inductive PinLevel : Type where
  | high : PinLevel
  | low : PinLevel
deriving DecidableEq, Repr

/-- An externally observable operation of the driver: a successful pin
level set, or a blocking delay of the given number of milliseconds. -/
inductive Event : Type where
  | pin : PinLevel → Event
  | delay : Nat → Event
deriving DecidableEq, Repr

/-- `struct MorseChar { length: u8, pattern: u8 }` — bit 0 of `pattern` is
the first transmitted symbol; 0 is dot, 1 is dash (source comment). -/
structure MorseChar : Type where
  length : Nat
  pattern : Nat
deriving DecidableEq, Repr

/-- `const CHARS: [MorseChar; 26]`, verbatim from the source (index 0 = A).
Note the source's S entry (index 18) is `{ length: 3, pattern: 0b111 }`. -/
def CHARS : List MorseChar := [
  ⟨2, 0b10⟩,    -- A
  ⟨4, 0b0001⟩,  -- B
  ⟨4, 0b0101⟩,  -- C
  ⟨3, 0b001⟩,   -- D
  ⟨1, 0b0⟩,     -- E
  ⟨4, 0b0100⟩,  -- F
  ⟨3, 0b011⟩,   -- G
  ⟨4, 0b0000⟩,  -- H
  ⟨2, 0b00⟩,    -- I
  ⟨4, 0b1110⟩,  -- J
  ⟨3, 0b101⟩,   -- K
  ⟨4, 0b0010⟩,  -- L
  ⟨2, 0b11⟩,    -- M
  ⟨2, 0b01⟩,    -- N
  ⟨3, 0b111⟩,   -- O
  ⟨4, 0b0110⟩,  -- P
  ⟨4, 0b1011⟩,  -- Q
  ⟨3, 0b010⟩,   -- R
  ⟨3, 0b111⟩,   -- S
  ⟨1, 0b1⟩,     -- T
  ⟨3, 0b100⟩,   -- U
  ⟨4, 0b1000⟩,  -- V
  ⟨3, 0b110⟩,   -- W
  ⟨4, 0b1001⟩,  -- X
  ⟨4, 0b1101⟩,  -- Y
  ⟨4, 0b0011⟩]  -- Z

/-- The timing/configuration fields of `struct Morse` (the owned `delay`
and `pin` collaborators are modelled by the event trace and fault model,
not stored). All fields are `u16` values represented as `Nat`. -/
structure Morse : Type where
  dot_length : Nat
  dash_length : Nat
  space_length : Nat
  invert : Bool
deriving DecidableEq, Repr

/-- `Morse::new`: stores `dot_length` and derives `dash_length` and
`space_length` as `dot_length * 3` in `u16` arithmetic (wraps mod 2^16). -/
def Morse.new (invert : Bool) (dot_length : Nat) : Morse :=
  { dot_length := dot_length
    dash_length := dot_length * 3 % 65536
    space_length := dot_length * 3 % 65536
    invert := invert }

/-- `Morse::new_default`: `Morse::new` with a `dot_length` of 300 ms. -/
def Morse.new_default (invert : Bool) : Morse :=
  Morse.new invert 300

/-- `char::to_ascii_uppercase` on a Unicode scalar value: maps a-z to A-Z,
leaves every other character unchanged. -/
def toAsciiUppercase (c : Nat) : Nat :=
  if 0x61 ≤ c ∧ c ≤ 0x7a then c - 0x20 else c

/-- `char::is_ascii_uppercase`: A-Z. -/
def isAsciiUppercase (c : Nat) : Bool :=
  decide (0x41 ≤ c ∧ c ≤ 0x5a)

/-- ASCII Latin letter of either case (used to state claims about
unsupported characters). -/
def isAsciiAlpha (c : Nat) : Bool :=
  decide ((0x41 ≤ c ∧ c ≤ 0x5a) ∨ (0x61 ≤ c ∧ c ≤ 0x7a))

/-- The result of a run of `output_str`: the successfully performed
events in order, the number of successful pin-set calls made, the returned
error (`none` = `Ok(())`), and the `Morse` struct (`&mut self`) after the
call. -/
structure RunOut (ε : Type) : Type where
  trace : List Event
  pins : Nat
  err : Option ε
  self : Morse
deriving DecidableEq, Repr

/-- The inner `for _ in 0..morse_char.length` loop of `output_str`:
arguments are the remaining iteration count, the current `pattern`, and
the index `k` of the next pin-set call under the fault model.  Each
iteration sets the pin active (low when `invert`, else high), delays
`dash_length` or `dot_length` according to the low bit of `pattern`, sets
the pin inactive, shifts `pattern` right, and delays `dot_length`.  A
failing pin-set call aborts with that error; the failing call itself
performs no event. -/
def emitPattern (m : Morse) (fault : Nat → Option ε) :
    Nat → Nat → Nat → RunOut ε
  | 0, _, k => ⟨[], k, none, m⟩
  | n + 1, pattern, k =>
    match fault k with
    | some e => ⟨[], k, some e, m⟩
    | none =>
      let e1 := Event.pin (if m.invert then PinLevel.low else PinLevel.high)
      let d1 := Event.delay (if pattern % 2 == 1 then m.dash_length else m.dot_length)
      match fault (k + 1) with
      | some e => ⟨[e1, d1], k + 1, some e, m⟩
      | none =>
        let e2 := Event.pin (if m.invert then PinLevel.high else PinLevel.low)
        let r := emitPattern m fault n (pattern / 2) (k + 2)
        ⟨e1 :: d1 :: e2 :: Event.delay m.dot_length :: r.trace, r.pins, r.err, r.self⟩

/-- `Morse::output_str`, translated from the source loop.  For each
character: uppercase it; if it is an ASCII uppercase letter, emit its
`CHARS` pattern followed by a `space_length` delay; else if it is a space,
delay `dot_length * 7` (u16 arithmetic); else do nothing.  The first pin
error aborts the whole call with that error. -/
def output_str : Morse → (Nat → Option ε) → List Nat → Nat → RunOut ε
  | m, _, [], k => ⟨[], k, none, m⟩
  | m, fault, c :: cs, k =>
    let cu := toAsciiUppercase c
    if isAsciiUppercase cu then
      let morse_char := CHARS.getD (cu - 0x41) ⟨0, 0⟩
      let r := emitPattern m fault morse_char.length morse_char.pattern k
      if r.err.isNone then
        let r2 := output_str r.self fault cs r.pins
        ⟨r.trace ++ Event.delay r.self.space_length :: r2.trace, r2.pins, r2.err, r2.self⟩
      else
        ⟨r.trace, r.pins, r.err, r.self⟩
    else if cu == 0x20 then
      let r2 := output_str m fault cs k
      ⟨Event.delay (m.dot_length * 7 % 65536) :: r2.trace, r2.pins, r2.err, r2.self⟩
    else
      output_str m fault cs k

example :
    output_str (Morse.new false 300) (fun _ => (none : Option Unit)) [0x45] 0 =
      ⟨[Event.pin PinLevel.high, Event.delay 300, Event.pin PinLevel.low,
        Event.delay 300, Event.delay 900], 2, none, Morse.new false 300⟩ := by
  decide

/-! ## Fault-free trace and fault-cut characterization

`patternEvents`/`traceOf` give the ideal (fault-free) event sequence of
`output_str`; `cutAt` executes an event list under a fault model, aborting
at the first failing pin-set call.  `output_str_spec` proves that the
translated `output_str` is exactly `cutAt` of the ideal trace. -/

/-- Ideal event sequence of one run of the inner pattern loop. -/
def patternEvents (m : Morse) : Nat → Nat → List Event
  | 0, _ => []
  | n + 1, pattern =>
    Event.pin (if m.invert then PinLevel.low else PinLevel.high) ::
    Event.delay (if pattern % 2 == 1 then m.dash_length else m.dot_length) ::
    Event.pin (if m.invert then PinLevel.high else PinLevel.low) ::
    Event.delay m.dot_length ::
    patternEvents m n (pattern / 2)

/-- Ideal (fault-free) event sequence of `output_str` on an input string. -/
def traceOf (m : Morse) : List Nat → List Event
  | [] => []
  | c :: cs =>
    let cu := toAsciiUppercase c
    if isAsciiUppercase cu then
      let morse_char := CHARS.getD (cu - 0x41) ⟨0, 0⟩
      patternEvents m morse_char.length morse_char.pattern ++
        Event.delay m.space_length :: traceOf m cs
    else if cu == 0x20 then
      Event.delay (m.dot_length * 7 % 65536) :: traceOf m cs
    else
      traceOf m cs

/-- Number of pin events in an event list. -/
def pinCount : List Event → Nat
  | [] => 0
  | Event.pin _ :: rest => pinCount rest + 1
  | Event.delay _ :: rest => pinCount rest

/-- Execute an ideal event sequence under a fault model: events are
performed in order, `k` counts pin-set calls, and the first pin event
whose call fails aborts the run with that error, performing neither the
failing call nor anything after it. -/
def cutAt (fault : Nat → Option ε) : List Event → Nat → List Event × Nat × Option ε
  | [], k => ([], k, none)
  | Event.pin l :: rest, k =>
    match fault k with
    | some e => ([], k, some e)
    | none =>
      let r := cutAt fault rest (k + 1)
      (Event.pin l :: r.1, r.2.1, r.2.2)
  | Event.delay d :: rest, k =>
    let r := cutAt fault rest k
    (Event.delay d :: r.1, r.2.1, r.2.2)

/-- `cutAt` packaged as a `RunOut` with an unchanged `self`. -/
def cutRun (fault : Nat → Option ε) (xs : List Event) (k : Nat) (m : Morse) :
    RunOut ε :=
  ⟨(cutAt fault xs k).1, (cutAt fault xs k).2.1, (cutAt fault xs k).2.2, m⟩

lemma cutAt_append (fault : Nat → Option ε) (xs ys : List Event) (k : Nat) :
    cutAt fault (xs ++ ys) k =
      match (cutAt fault xs k).2.2 with
      | some e => ((cutAt fault xs k).1, (cutAt fault xs k).2.1, some e)
      | none =>
        ((cutAt fault xs k).1 ++ (cutAt fault ys (cutAt fault xs k).2.1).1,
         (cutAt fault ys (cutAt fault xs k).2.1).2.1,
         (cutAt fault ys (cutAt fault xs k).2.1).2.2) := by
  induction xs generalizing k with
  | nil => simp [cutAt]
  | cons x rest ih =>
    cases x with
    | pin l =>
      simp only [List.cons_append, cutAt, List.append_eq]
      cases fault k with
      | some e => simp
      | none =>
        simp only [ih]
        cases h : (cutAt fault rest (k + 1)).2.2 with
        | some e => simp [h]
        | none => simp [h]
    | delay d =>
      simp only [List.cons_append, cutAt, List.append_eq]
      simp only [ih]
      cases h : (cutAt fault rest k).2.2 with
      | some e => simp [h]
      | none => simp [h]

lemma emitPattern_spec (m : Morse) (fault : Nat → Option ε) (n p k : Nat) :
    emitPattern m fault n p k = cutRun fault (patternEvents m n p) k m := by
  induction n generalizing p k with
  | zero => simp [emitPattern, patternEvents, cutRun, cutAt]
  | succ n ih =>
    simp only [emitPattern, patternEvents, cutRun, cutAt]
    cases fault k with
    | some e => simp
    | none =>
      simp only []
      cases fault (k + 1) with
      | some e => simp
      | none => simp [ih, cutRun]

lemma output_str_spec (m : Morse) (fault : Nat → Option ε) (s : List Nat) (k : Nat) :
    output_str m fault s k = cutRun fault (traceOf m s) k m := by
  induction s generalizing k with
  | nil => simp [output_str, traceOf, cutRun, cutAt]
  | cons c cs ih =>
    simp only [output_str, traceOf]
    cases hU : isAsciiUppercase (toAsciiUppercase c) with
    | true =>
      simp only [hU, if_true, emitPattern_spec, ih, cutRun, cutAt_append]
      cases h : (cutAt fault
          (patternEvents m (CHARS.getD (toAsciiUppercase c - 0x41) ⟨0, 0⟩).length
            (CHARS.getD (toAsciiUppercase c - 0x41) ⟨0, 0⟩).pattern) k).2.2 with
      | some e => simp [h, Option.isNone]
      | none => simp [h, Option.isNone, cutAt]
    | false =>
      cases hS : toAsciiUppercase c == 0x20 with
      | true => simp [hU, hS, ih, cutRun, cutAt]
      | false => simp [hU, hS, ih]

lemma cutAt_fault_free (fault : Nat → Option ε) (xs : List Event) (k : Nat)
    (h : ∀ j, fault j = none) :
    cutAt fault xs k = (xs, k + pinCount xs, none) := by
  induction xs generalizing k with
  | nil => simp [cutAt, pinCount]
  | cons x rest ih =>
    cases x with
    | pin l => simp [cutAt, pinCount, h, ih]; omega
    | delay d => simp [cutAt, pinCount, ih]

lemma cutAt_ok_full (fault : Nat → Option ε) (xs : List Event) (k : Nat)
    (h : (cutAt fault xs k).2.2 = none) :
    (cutAt fault xs k).1 = xs := by
  induction xs generalizing k with
  | nil => simp [cutAt]
  | cons x rest ih =>
    cases x with
    | pin l =>
      revert h
      simp only [cutAt]
      cases hf : fault k with
      | some e => simp
      | none => intro h; simp [ih _ h]
    | delay d =>
      revert h
      simp only [cutAt]
      intro h
      simp [ih _ h]

lemma cutAt_err_fault (fault : Nat → Option ε) (xs : List Event) (k : Nat) (e : ε)
    (h : (cutAt fault xs k).2.2 = some e) :
    fault ((cutAt fault xs k).2.1) = some e := by
  induction xs generalizing k with
  | nil => simp [cutAt] at h
  | cons x rest ih =>
    cases x with
    | pin l =>
      revert h
      simp only [cutAt]
      cases hf : fault k with
      | some e2 =>
        intro h
        simp at h
        simp [h] at hf
        simp [hf]
      | none => intro h; exact ih _ h
    | delay d =>
      simp only [cutAt] at h ⊢
      exact ih _ h

/-! ## Derived observations on traces -/

/-- Swap the level of a pin event; leave delays unchanged. -/
def flipEvent : Event → Event
  | Event.pin PinLevel.high => Event.pin PinLevel.low
  | Event.pin PinLevel.low => Event.pin PinLevel.high
  | Event.delay d => Event.delay d

/-- The delay durations of a trace, in order. -/
def delaysOf : List Event → List Nat
  | [] => []
  | Event.pin _ :: rest => delaysOf rest
  | Event.delay d :: rest => d :: delaysOf rest

/-- The pin levels of a trace, in order. -/
def pinsOf : List Event → List PinLevel
  | [] => []
  | Event.pin l :: rest => l :: pinsOf rest
  | Event.delay _ :: rest => pinsOf rest

/-- The level driven while a symbol is transmitted: low when `invert`. -/
def activeLevel (m : Morse) : PinLevel :=
  if m.invert then PinLevel.low else PinLevel.high

/-- The level driven between symbols: the opposite of `activeLevel`. -/
def inactiveLevel (m : Morse) : PinLevel :=
  if m.invert then PinLevel.high else PinLevel.low

/-- `k` repetitions of active-then-inactive: the strictly alternating pin
level sequence starting active and ending inactive. -/
def altPins (m : Morse) : Nat → List PinLevel
  | 0 => []
  | k + 1 => activeLevel m :: inactiveLevel m :: altPins m k

lemma patternEvents_invert (m : Morse) (n p : Nat) :
    patternEvents { m with invert := true } n p =
      (patternEvents { m with invert := false } n p).map flipEvent := by
  induction n generalizing p with
  | zero => simp [patternEvents]
  | succ n ih => simp [patternEvents, flipEvent, ih]

lemma traceOf_invert (m : Morse) (s : List Nat) :
    traceOf { m with invert := true } s =
      (traceOf { m with invert := false } s).map flipEvent := by
  induction s with
  | nil => simp [traceOf]
  | cons c cs ih =>
    simp only [traceOf]
    cases hU : isAsciiUppercase (toAsciiUppercase c) with
    | true => simp [hU, patternEvents_invert, ih, flipEvent]
    | false =>
      cases hS : toAsciiUppercase c == 0x20 with
      | true => simp [hU, hS, ih, flipEvent]
      | false => simp [hU, hS, ih]

lemma delaysOf_map_flip (xs : List Event) :
    delaysOf (xs.map flipEvent) = delaysOf xs := by
  induction xs with
  | nil => rfl
  | cons x rest ih =>
    cases x with
    | pin l => cases l <;> simp [flipEvent, delaysOf, ih]
    | delay d => simp [flipEvent, delaysOf, ih]

lemma toAsciiUppercase_idem (c : Nat) :
    toAsciiUppercase (toAsciiUppercase c) = toAsciiUppercase c := by
  simp only [toAsciiUppercase]
  split
  · split <;> omega
  · rfl

lemma traceOf_map_upper (m : Morse) (s : List Nat) :
    traceOf m (s.map toAsciiUppercase) = traceOf m s := by
  induction s with
  | nil => rfl
  | cons c cs ih => simp only [List.map_cons, traceOf, toAsciiUppercase_idem, ih]

lemma traceOf_cons_unsupported (m : Morse) (c : Nat) (cs : List Nat)
    (h1 : isAsciiAlpha c = false) (h2 : c ≠ 0x20) :
    traceOf m (c :: cs) = traceOf m cs := by
  simp only [isAsciiAlpha, decide_eq_false_iff_not] at h1
  have hc : toAsciiUppercase c = c := by
    simp only [toAsciiUppercase]
    rw [if_neg]
    omega
  have hU : isAsciiUppercase c = false := by
    simp only [isAsciiUppercase, decide_eq_false_iff_not]
    omega
  have hS : (c == 0x20) = false := by
    simp [h2]
  simp [traceOf, hc, hU, hS]

lemma traceOf_skip_unsupported (m : Morse) (s1 s2 : List Nat) (c : Nat)
    (h1 : isAsciiAlpha c = false) (h2 : c ≠ 0x20) :
    traceOf m (s1 ++ c :: s2) = traceOf m (s1 ++ s2) := by
  induction s1 with
  | nil => simpa using traceOf_cons_unsupported m c s2 h1 h2
  | cons x s1 ih => simp only [List.cons_append, traceOf, List.append_eq, ih]

lemma pinsOf_append (xs ys : List Event) :
    pinsOf (xs ++ ys) = pinsOf xs ++ pinsOf ys := by
  induction xs with
  | nil => rfl
  | cons x rest ih => cases x <;> simp [pinsOf, ih]

lemma altPins_add (m : Morse) (a b : Nat) :
    altPins m (a + b) = altPins m a ++ altPins m b := by
  induction a with
  | zero => simp [altPins]
  | succ a ih =>
    rw [Nat.succ_add]
    simp [altPins, ih]

lemma pinsOf_patternEvents (m : Morse) (n p : Nat) :
    pinsOf (patternEvents m n p) = altPins m n := by
  induction n generalizing p with
  | zero => rfl
  | succ n ih => simp [patternEvents, pinsOf, altPins, activeLevel, inactiveLevel, ih]

lemma pinsOf_traceOf (m : Morse) (s : List Nat) :
    ∃ k, pinsOf (traceOf m s) = altPins m k := by
  induction s with
  | nil => exact ⟨0, rfl⟩
  | cons c cs ih =>
    obtain ⟨k, hk⟩ := ih
    cases hU : isAsciiUppercase (toAsciiUppercase c) with
    | true =>
      refine ⟨(CHARS.getD (toAsciiUppercase c - 0x41) ⟨0, 0⟩).length + k, ?_⟩
      simp [traceOf, hU, pinsOf_append, pinsOf_patternEvents, pinsOf, hk, altPins_add]
    | false =>
      cases hS : toAsciiUppercase c == 0x20 with
      | true => exact ⟨k, by simp [traceOf, hU, hS, pinsOf, hk]⟩
      | false => exact ⟨k, by simp [traceOf, hU, hS, hk]⟩

/-! ## The symbol table versus the standard Morse alphabet -/

/-- A Morse symbol: dot or dash. -/
inductive MSym : Type where
  | dot : MSym
  | dash : MSym
deriving DecidableEq, Repr

/-- Read a `MorseChar` the way the emission loop consumes it: `length`
bits of `pattern`, least-significant first, bit 0 a dot and bit 1 a dash. -/
def decodeMorseChar : Nat → Nat → List MSym
  | 0, _ => []
  | n + 1, pattern =>
    (if pattern % 2 == 1 then MSym.dash else MSym.dot) :: decodeMorseChar n (pattern / 2)

/-- The symbol sequence the `CHARS` table stores for letter index `i`
(0 = A), in transmission order. -/
def tableCode (i : Nat) : List MSym :=
  decodeMorseChar (CHARS.getD i ⟨0, 0⟩).length (CHARS.getD i ⟨0, 0⟩).pattern

/-- The standard International Morse alphabet, written from the spec's
reference list (A=·−, B=−···, …, Z=−−··), index 0 = A, in transmission
order.  This is the spec-side reference that the source table is compared
against; it is not derived from the code. -/
def standardMorse : List (List MSym) := [
  [MSym.dot, MSym.dash],                        -- A ·−
  [MSym.dash, MSym.dot, MSym.dot, MSym.dot],    -- B −···
  [MSym.dash, MSym.dot, MSym.dash, MSym.dot],   -- C −·−·
  [MSym.dash, MSym.dot, MSym.dot],              -- D −··
  [MSym.dot],                                   -- E ·
  [MSym.dot, MSym.dot, MSym.dash, MSym.dot],    -- F ··−·
  [MSym.dash, MSym.dash, MSym.dot],             -- G −−·
  [MSym.dot, MSym.dot, MSym.dot, MSym.dot],     -- H ····
  [MSym.dot, MSym.dot],                         -- I ··
  [MSym.dot, MSym.dash, MSym.dash, MSym.dash],  -- J ·−−−
  [MSym.dash, MSym.dot, MSym.dash],             -- K −·−
  [MSym.dot, MSym.dash, MSym.dot, MSym.dot],    -- L ·−··
  [MSym.dash, MSym.dash],                       -- M −−
  [MSym.dash, MSym.dot],                        -- N −·
  [MSym.dash, MSym.dash, MSym.dash],            -- O −−−
  [MSym.dot, MSym.dash, MSym.dash, MSym.dot],   -- P ·−−·
  [MSym.dash, MSym.dash, MSym.dot, MSym.dash],  -- Q −−·−
  [MSym.dot, MSym.dash, MSym.dot],              -- R ·−·
  [MSym.dot, MSym.dot, MSym.dot],               -- S ···
  [MSym.dash],                                  -- T −
  [MSym.dot, MSym.dot, MSym.dash],              -- U ··−
  [MSym.dot, MSym.dot, MSym.dot, MSym.dash],    -- V ···−
  [MSym.dot, MSym.dash, MSym.dash],             -- W ·−−
  [MSym.dash, MSym.dot, MSym.dot, MSym.dash],   -- X −··−
  [MSym.dash, MSym.dot, MSym.dash, MSym.dash],  -- Y −·−−
  [MSym.dash, MSym.dash, MSym.dot, MSym.dot]]   -- Z −−··

example : tableCode 0 = [MSym.dot, MSym.dash] := by decide
example : tableCode 18 = [MSym.dash, MSym.dash, MSym.dash] := by decide
example :
    (List.range 26).filter
      (fun i => decide (¬ tableCode i = standardMorse.getD i [])) = [18] := by
  decide

/-- Fault-free runs perform the whole ideal trace and return `Ok(())`. -/
lemma output_str_fault_free (m : Morse) (s : List Nat) :
    output_str m (fun _ => (none : Option ε)) s 0 =
      ⟨traceOf m s, pinCount (traceOf m s), none, m⟩ := by
  rw [output_str_spec]
  simp [cutRun, cutAt_fault_free (fun _ => (none : Option ε)) (traceOf m s) 0 (fun _ => rfl)]

/-! ## Claims -/

/-- C1: the claim that every `CHARS` entry equals the standard
International Morse sequence of its letter is violated by the code at the
letter S (table index 18): the source stores `pattern 0b111`, which the
emission loop transmits as dash-dash-dash — identical to the O entry —
while standard Morse S is dot-dot-dot.  The third conjunct shows S is the
only letter whose stored code deviates from the reference alphabet. -/
theorem C1_S_entry_is_wrong :
    tableCode 18 = [MSym.dash, MSym.dash, MSym.dash] ∧
    standardMorse.getD 18 [] = [MSym.dot, MSym.dot, MSym.dot] ∧
    (List.range 26).filter
      (fun i => decide (¬ tableCode i = standardMorse.getD i [])) = [18] := by
  decide

/-- C2: a run of `output_str` equals the ideal event sequence executed by
`cutAt`, which aborts at the first failing pin-set call, returning exactly
that call's error and performing no pin operation or delay at or after the
failing call; with no pin fault the run performs the whole ideal trace and
returns `Ok(())` (`err = none`); a returned error is exactly the fault of
the pin-set call numbered by the returned pin counter. -/
theorem C2_first_pin_error_aborts (m : Morse) (fault : Nat → Option ε) (s : List Nat) :
    output_str m fault s 0 = cutRun fault (traceOf m s) 0 m ∧
    ((∀ j, fault j = none) →
      output_str m fault s 0 = ⟨traceOf m s, pinCount (traceOf m s), none, m⟩) ∧
    (∀ e, (output_str m fault s 0).err = some e →
      fault ((output_str m fault s 0).pins) = some e) := by
  refine ⟨output_str_spec m fault s 0, ?_, ?_⟩
  · intro h
    rw [output_str_spec]
    simp [cutRun, cutAt_fault_free fault (traceOf m s) 0 h]
  · intro e he
    rw [output_str_spec] at he ⊢
    simp only [cutRun] at he ⊢
    exact cutAt_err_fault fault (traceOf m s) 0 e he

/-- Witness for C2 at a concrete fault-free run of `"E"`. -/
theorem C2_witness :
    output_str (Morse.new false 1) (fun _ => (none : Option Unit)) [0x45] 0 =
      ⟨traceOf (Morse.new false 1) [0x45],
        pinCount (traceOf (Morse.new false 1) [0x45]), none, Morse.new false 1⟩ :=
  (C2_first_pin_error_aborts (Morse.new false 1) (fun _ => none) [0x45]).2.1
    (fun _ => rfl)

/-- C3: with `invert = false`, `output_str "E"` performs exactly pin high,
delay `dot_length`, pin low, delay `dot_length`, delay `space_length`, in
that order (two pin-set calls), and nothing else — no word gap. -/
theorem C3_output_E (m : Morse) (h : m.invert = false) :
    output_str m (fun _ => (none : Option ε)) [0x45] 0 =
      ⟨[Event.pin PinLevel.high, Event.delay m.dot_length, Event.pin PinLevel.low,
        Event.delay m.dot_length, Event.delay m.space_length], 2, none, m⟩ := by
  rw [output_str_fault_free]
  simp [traceOf, patternEvents, toAsciiUppercase, isAsciiUppercase, CHARS, pinCount, h]

/-- Witness for C3 at the default timing. -/
theorem C3_witness :
    output_str (Morse.new false 300) (fun _ => (none : Option Unit)) [0x45] 0 =
      ⟨[Event.pin PinLevel.high, Event.delay 300, Event.pin PinLevel.low,
        Event.delay 300, Event.delay 900], 2, none, Morse.new false 300⟩ :=
  C3_output_E (Morse.new false 300) rfl

/-- C4 counterexample: `dot_length = 30000` is a valid `u16` argument to
`Morse::new`, but `dot_length * 3` wraps modulo 2^16, so the stored
`dash_length` is 24464, not `3 * 30000 = 90000`. -/
theorem C4_counterexample :
    ¬ (Morse.new false 30000).dash_length = 3 * 30000 := by
  decide

/-- C4 (amended): for every `dot_length ≤ 9362` — so that even
`7 * dot_length` fits in `u16` — the constructed instance has
`dash_length = 3 * dot_length` and `space_length = 3 * dot_length`
exactly, and `output_str` emits exactly one `7 * dot_length` delay for a
space character; for larger `u16` values the products wrap modulo 2^16. -/
theorem C4_timing_ratios (inv : Bool) (d : Nat) (h : d ≤ 9362) :
    (Morse.new inv d).dash_length = 3 * d ∧
    (Morse.new inv d).space_length = 3 * d ∧
    output_str (Morse.new inv d) (fun _ => (none : Option Unit)) [0x20] 0 =
      ⟨[Event.delay (7 * d)], 0, none, Morse.new inv d⟩ := by
  have h3 : d * 3 % 65536 = 3 * d := by omega
  have h7 : d * 7 % 65536 = 7 * d := by omega
  refine ⟨by simp [Morse.new, h3], by simp [Morse.new, h3], ?_⟩
  rw [output_str_fault_free]
  simp [traceOf, toAsciiUppercase, isAsciiUppercase, pinCount, Morse.new, h7]

/-- Witness for C4 at the default `dot_length` of 300. -/
theorem C4_witness :
    (Morse.new false 300).dash_length = 3 * 300 ∧
    (Morse.new false 300).space_length = 3 * 300 ∧
    output_str (Morse.new false 300) (fun _ => (none : Option Unit)) [0x20] 0 =
      ⟨[Event.delay (7 * 300)], 0, none, Morse.new false 300⟩ :=
  C4_timing_ratios false 300 (by decide)

/-- C5: inverting the polarity flag never changes timing: for every
configuration and input, the run with `invert = true` performs the same
events as the run with `invert = false` with every pin level swapped
(high ↔ low), and in particular the delay sequences are identical. -/
theorem C5_invert_swaps_polarity (m : Morse) (s : List Nat) :
    (output_str { m with invert := true } (fun _ => (none : Option Unit)) s 0).trace =
      ((output_str { m with invert := false } (fun _ => (none : Option Unit)) s 0).trace).map
        flipEvent ∧
    delaysOf (output_str { m with invert := true } (fun _ => (none : Option Unit)) s 0).trace =
      delaysOf (output_str { m with invert := false } (fun _ => (none : Option Unit)) s 0).trace := by
  rw [output_str_fault_free, output_str_fault_free]
  exact ⟨traceOf_invert m s, by rw [traceOf_invert, delaysOf_map_flip]⟩

/-- C6: `output_str` is ASCII-case-insensitive: for every fault model the
run on the uppercased input is identical to the run on the original, and
in particular `"Sos"` and `"SOS"` drive the pin identically. -/
theorem C6_case_insensitive (m : Morse) (fault : Nat → Option ε) (s : List Nat) :
    output_str m fault (s.map toAsciiUppercase) 0 = output_str m fault s 0 ∧
    output_str m fault [0x53, 0x6f, 0x73] 0 = output_str m fault [0x53, 0x4f, 0x53] 0 := by
  constructor
  · rw [output_str_spec, output_str_spec, traceOf_map_upper]
  · rw [output_str_spec, output_str_spec,
      show ([0x53, 0x4f, 0x53] : List Nat) = [0x53, 0x6f, 0x73].map toAsciiUppercase
        from by decide,
      traceOf_map_upper]

/-- C7: a character that is neither an ASCII Latin letter nor a space
contributes no pin operation, no delay and no error: under every fault
model the run on `s1 ++ c :: s2` is identical to the run on `s1 ++ s2`. -/
theorem C7_unsupported_is_noop (m : Morse) (fault : Nat → Option ε)
    (s1 s2 : List Nat) (c : Nat) (h1 : isAsciiAlpha c = false) (h2 : c ≠ 0x20) :
    output_str m fault (s1 ++ c :: s2) 0 = output_str m fault (s1 ++ s2) 0 := by
  rw [output_str_spec, output_str_spec, traceOf_skip_unsupported m s1 s2 c h1 h2]

/-- Witness for C7: the digit `'1'` between `'A'` and `'B'`. -/
theorem C7_witness :
    output_str (Morse.new false 1) (fun _ => (none : Option Unit))
        ([0x41] ++ 0x31 :: [0x42]) 0 =
      output_str (Morse.new false 1) (fun _ => (none : Option Unit)) ([0x41] ++ [0x42]) 0 :=
  C7_unsupported_is_noop (Morse.new false 1) (fun _ => none) [0x41] [0x42] 0x31
    (by decide) (by decide)

/-- C8 counterexample: for the valid `u16` value `dot_length = 30000` the
space delay is `30000 * 7 % 65536 = 13392` milliseconds, not
`7 * 30000 = 210000`. -/
theorem C8_counterexample :
    ¬ (output_str (Morse.new false 30000) (fun _ => (none : Option Unit)) [0x20] 0).trace =
      [Event.delay (7 * 30000)] := by
  decide

/-- C8 (amended): `output_str " "` performs zero pin operations and
exactly one delay of `dot_length * 7` in `u16` arithmetic (mod 2^16) and
returns `Ok(())`; the duration equals `7 * dot_length` exactly whenever
`dot_length ≤ 9362`. -/
theorem C8_single_space (m : Morse) :
    output_str m (fun _ => (none : Option Unit)) [0x20] 0 =
      ⟨[Event.delay (m.dot_length * 7 % 65536)], 0, none, m⟩ ∧
    (m.dot_length ≤ 9362 → m.dot_length * 7 % 65536 = 7 * m.dot_length) := by
  constructor
  · rw [output_str_fault_free]
    simp [traceOf, toAsciiUppercase, isAsciiUppercase, pinCount]
  · intro h
    omega

/-- Witness for C8 at the default `dot_length` of 300. -/
theorem C8_witness :
    output_str (Morse.new false 300) (fun _ => (none : Option Unit)) [0x20] 0 =
      ⟨[Event.delay ((Morse.new false 300).dot_length * 7 % 65536)], 0, none,
        Morse.new false 300⟩ ∧
    (Morse.new false 300).dot_length * 7 % 65536 = 7 * (Morse.new false 300).dot_length :=
  ⟨(C8_single_space (Morse.new false 300)).1,
    (C8_single_space (Morse.new false 300)).2 (by decide)⟩

/-- C9: in every run of `output_str` that returns `Ok(())`, the performed
pin levels are exactly `k` repetitions of active-then-inactive: they
strictly alternate, the first (if any) is the active level and the last
(if any) is the inactive level, so the pin is never left active. -/
theorem C9_pins_alternate (m : Morse) (fault : Nat → Option ε) (s : List Nat)
    (h : (output_str m fault s 0).err = none) :
    ∃ k, pinsOf (output_str m fault s 0).trace = altPins m k := by
  rw [output_str_spec] at h ⊢
  simp only [cutRun] at h ⊢
  rw [cutAt_ok_full fault (traceOf m s) 0 h]
  exact pinsOf_traceOf m s

/-- Witness for C9 at a concrete fault-free run of `"E"`. -/
theorem C9_witness :
    ∃ k, pinsOf (output_str (Morse.new false 1) (fun _ => (none : Option Unit)) [0x45] 0).trace =
      altPins (Morse.new false 1) k :=
  C9_pins_alternate (Morse.new false 1) (fun _ => none) [0x45] (by decide)

/-- C10: `output_str` leaves the `Morse` struct unchanged — the
`dot_length`, `dash_length`, `space_length` and `invert` fields after any
run (`Ok` or error, any fault model, any starting pin counter) are the
fields it started with; only the trace of pin/delay operations is
produced. -/
theorem C10_self_unchanged (m : Morse) (fault : Nat → Option ε) (s : List Nat) (k : Nat) :
    (output_str m fault s k).self = m := by
  rw [output_str_spec]
  rfl
